import Mathlib

/-!
# Lease allocator of the DHCP server: subnet state engine

A shallow embedding of `src/subnet.go` (with the record types of `src/api.go`)
and theorems about `free_lease`, `firstClearBit`, `getFreeIP`,
`find_or_get_info` and `build_options`.

Conventions of the embedding.

* An IPv4 address (`net.IP`) is the natural number of its four big-endian
  bytes; `net.IP.Equal` is equality of these numbers.
* A point in time (`time.Time`) is an integer; the zero `time.Time` of a lease
  that was never renewed is `0`.  `time.Now()` is the argument `now`.
* A `time.Duration` is an integer number of nanoseconds (Go `int64`).
* Go `uint` and `int` are 64 bit wide, `uint32` is 32 bit wide; conversions are
  written with explicit remainders.
* A Go map is an association list read by first match; storing under a key and
  deleting a key drop every entry of that key.
* The subnet lock is not modelled (the operations run one at a time) and the
  calls of `dt.save_data()` are left out: they do not touch the subnet.
-/

set_option linter.unusedVariables false

namespace Dhcp

/-! ## Library helpers used by `subnet.go` -/

/-- Two to the power 32, the number of IPv4 addresses. -/
def two32 : Nat := 4294967296

/-- Two to the power 64, the number of values of a Go `uint`. -/
def two64 : Int := 18446744073709551616

/-- Go conversion `uint(x)` of an `int`: the value modulo 2^64. -/
def toUint (x : Int) : Nat := (x % two64).toNat

/-- Go conversion `int(x)` of a `uint`: two's complement reading of 64 bits. -/
def toInt (x : Nat) : Int :=
  if (x : Int) % two64 < 9223372036854775808 then (x : Int) % two64
  else (x : Int) % two64 - two64

/-- Go conversion `uint32(x)` of an integer: the value modulo 2^32. -/
def toUint32 (x : Int) : Nat := (x % (two32 : Int)).toNat

/-- The helper `dhcp.IPRange(start, stop)` of the DHCP library: the number of
addresses from `start` to `stop` inclusive, `stop - start + 1` as a Go `int`. -/
def IPRange (start stop : Nat) : Int := (stop : Int) - (start : Int) + 1

/-- The helper `dhcp.IPLess(a, b)`: bytewise comparison of big-endian
addresses, which is the order of their values. -/
def IPLess (a b : Nat) : Bool := decide (a < b)

/-- The helper `dhcp.IPInRange(start, stop, ip)`:
`!(IPLess(ip, start) || IPLess(stop, ip))`. -/
def IPInRange (start stop ip : Nat) : Bool := !(IPLess ip start || IPLess stop ip)

/-- The helper `dhcp.IPAdd(start, add)`: `start + uint32(add)` in 32-bit
arithmetic. -/
def IPAdd (start : Nat) (add : Int) : Nat := (start + toUint32 add) % two32

/-- The bit set of the bitset library, as the list of its bits. -/
structure BitSet where
  bits : List Bool
deriving DecidableEq, Repr

namespace BitSet

/-- The constructor `bitset.New(n)`: `n` clear bits. -/
def New (n : Nat) : BitSet := ⟨List.replicate n false⟩

/-- The method `Len()`: the number of bits. -/
def Len (b : BitSet) : Nat := b.bits.length

/-- The method `Test(i)`: whether bit `i` is set; `false` outside the set. -/
def Test (b : BitSet) (i : Nat) : Bool := b.bits.getD i false

/-- The method `Set(i)`: set bit `i`, growing the set when `i` is outside it. -/
def Set (b : BitSet) (i : Nat) : BitSet :=
  if i < b.bits.length then ⟨b.bits.set i true⟩
  else ⟨b.bits ++ List.replicate (i - b.bits.length) false ++ [true]⟩

/-- The method `Clear(i)`: clear bit `i`; nothing happens when `i >= Len()`. -/
def Clear (b : BitSet) (i : Nat) : BitSet :=
  if i ≥ b.bits.length then b else ⟨b.bits.set i false⟩

end BitSet

/-! ## Go maps as association lists -/

/-- The read `m[k]` of a map: the first entry of key `k`. -/
def mapGet {κ α : Type} [DecidableEq κ] : List (κ × α) → κ → Option α
  | [], _ => none
  | (k', v) :: rest, k => if k' = k then some v else mapGet rest k

/-- The statement `delete(m, k)`. -/
def mapDelete {κ α : Type} [DecidableEq κ] (m : List (κ × α)) (k : κ) : List (κ × α) :=
  m.filter (fun e => decide (e.1 ≠ k))

/-- The statement `m[k] = v`. -/
def mapSet {κ α : Type} [DecidableEq κ] (m : List (κ × α)) (k : κ) (v : α) : List (κ × α) :=
  (k, v) :: mapDelete m k

/-! ## Data model (`api.go`, `subnet.go`) -/

/-- The record `Option` of `api.go`: an option code and its value as text. -/
structure ApiOption where
  Code : Nat
  Value : String
deriving DecidableEq, Repr

/-- The record `Lease` of `api.go`. -/
structure Lease where
  Ip : Nat
  Mac : String
  Valid : Bool
  ExpireTime : Int
deriving DecidableEq, Repr

/-- The record `Binding` of `api.go`. -/
structure Binding where
  Ip : Nat
  Mac : String
  Options : List ApiOption
  NextServer : Option String
deriving DecidableEq, Repr

/-- The type `dhcp.Options`: a map from option code to payload bytes, as an
association list read by first match. -/
abbrev Options := List (Nat × List Nat)

/-- The record `Subnet` of `subnet.go` (without its lock and its CIDR). -/
structure Subnet where
  Name : String
  NextServer : Option Nat
  ActiveStart : Nat
  ActiveEnd : Nat
  ActiveLeaseTime : Int
  ActiveBits : BitSet
  ReservedLeaseTime : Int
  Leases : List (String × Lease)
  Bindings : List (String × Binding)
  Options : Options
  IPXE : String
  Bootstrap : String
deriving DecidableEq, Repr

/-! ## Operations of `subnet.go` -/

/-- The argument of `ActiveBits.Clear` in `free_lease` and `getFreeIP`:
`uint(dhcp.IPRange(lease.Ip, subnet.ActiveStart) - 1)`. -/
def clearIndex (subnet : Subnet) (ip : Nat) : Nat :=
  toUint (IPRange ip subnet.ActiveStart - 1)

/-- The function `free_lease`. -/
def free_lease (subnet : Subnet) (nic : String) : Subnet :=
  match mapGet subnet.Leases nic with
  | some lease =>
    let bits :=
      if IPInRange subnet.ActiveStart subnet.ActiveEnd lease.Ip then
        subnet.ActiveBits.Clear (clearIndex subnet lease.Ip)
      else subnet.ActiveBits
    { subnet with ActiveBits := bits, Leases := mapDelete subnet.Leases nic }
  | none => subnet

/-- The function `find_info`. -/
def find_info (subnet : Subnet) (nic : String) : Option Lease × Option Binding :=
  (mapGet subnet.Leases nic, mapGet subnet.Bindings nic)

/-- The loop of `firstClearBit`, started at index `i` with `n` indices left
below `bs.Len()`. -/
def firstClearBitLoop (bs : BitSet) : Nat → Nat → Nat × Bool
  | 0, _ => (0, false)
  | n + 1, i => if !bs.Test i then (i, true) else firstClearBitLoop bs n (i + 1)

/-- The function `firstClearBit`. -/
def firstClearBit (bs : BitSet) : Nat × Bool := firstClearBitLoop bs bs.Len 0

/-- One round of the reaping loop of `getFreeIP`, for the entry `(k, lease)`:
the state is the bit set and the lease table. -/
def reapStep (subnet : Subnet) (now : Int) (st : BitSet × List (String × Lease) × Bool)
    (e : String × Lease) : BitSet × List (String × Lease) × Bool :=
  if e.2.ExpireTime < now then
    let bits :=
      if IPInRange subnet.ActiveStart subnet.ActiveEnd e.2.Ip then
        st.1.Clear (clearIndex subnet e.2.Ip)
      else st.1
    (bits, mapDelete st.2.1 e.1, true)
  else st

/-- The reaping loop of `getFreeIP`: `for k, lease := range subnet.Leases`. -/
def reap (subnet : Subnet) (now : Int) : BitSet × List (String × Lease) × Bool :=
  subnet.Leases.foldl (reapStep subnet now) (subnet.ActiveBits, subnet.Leases, false)

/-- The function `getFreeIP`: the subnet afterwards, the address if any, and
the flag `save_me`. -/
def getFreeIP (subnet : Subnet) (now : Int) : Subnet × Option Nat × Bool :=
  let r := firstClearBit subnet.ActiveBits
  if r.2 then
    ({ subnet with ActiveBits := subnet.ActiveBits.Set r.1 },
      some (IPAdd subnet.ActiveStart (toInt r.1)), true)
  else
    let st := reap subnet now
    let subnet1 := { subnet with ActiveBits := st.1, Leases := st.2.1 }
    let r2 := firstClearBit subnet1.ActiveBits
    if r2.2 then
      ({ subnet1 with ActiveBits := subnet1.ActiveBits.Set r2.1 },
        some (IPAdd subnet1.ActiveStart (toInt r2.1)), true)
    else (subnet1, none, st.2.2)

/-- The end of the slow path of `find_or_get_info`: a new lease on `theip` is
stored under `nic`. -/
def storeLease (subnet : Subnet) (nic : String) (theip : Nat) (binding : Option Binding) :
    Subnet × Option Lease × Option Binding :=
  let lease : Lease := { Ip := theip, Mac := nic, Valid := true, ExpireTime := 0 }
  ({ subnet with Leases := mapSet subnet.Leases nic lease }, some lease, binding)

/-- The slow path of `find_or_get_info` (the block under `if lease == nil`). -/
def slowPath (subnet : Subnet) (now : Int) (nic : String) :
    Subnet × Option Lease × Option Binding :=
  let lease := mapGet subnet.Leases nic
  let binding := mapGet subnet.Bindings nic
  let conflictFree : Bool :=
    match lease, binding with
    | some l, some b => decide (l.Ip = b.Ip)
    | _, _ => false
  if conflictFree then (subnet, lease, binding)
  else
    match binding with
    | some b => storeLease subnet nic b.Ip binding
    | none =>
      let r := getFreeIP subnet now
      match r.2.1 with
      | none => (r.1, none, none)
      | some ip => storeLease r.1 nic ip binding

/-- The function `find_or_get_info`: the subnet afterwards, the lease and the
binding returned. -/
def find_or_get_info (subnet : Subnet) (now : Int) (nic : String) (suggest : Option Nat) :
    Subnet × Option Lease × Option Binding :=
  let binding := mapGet subnet.Bindings nic
  let lease := mapGet subnet.Leases nic
  match lease, binding with
  | some l, some b =>
    if l.Ip = b.Ip then (subnet, some l, some b) else slowPath subnet now nic
  | some l, none => (subnet, some l, none)
  | none, _ => slowPath subnet now nic

/-- The call `binary.BigEndian.PutUint32(b, v)` on a fresh 4-byte slice. -/
def PutUint32 (v : Nat) : List Nat :=
  [v / 16777216 % 256, v / 65536 % 256, v / 256 % 256, v % 256]

/-- The constant `dhcp.OptionRenewalTimeValue`. -/
def OptionRenewalTimeValue : Nat := 58

/-- The constant `dhcp.OptionRebindingTimeValue`. -/
def OptionRebindingTimeValue : Nat := 59

/-- The function `build_options`.  The encoder `convertOptionValueToByte` lives
outside `subnet.go` and is the argument `conv`; `none` is its error result.
The lease is not read by the function. -/
def build_options (conv : Nat → String → Option (List Nat)) (s : Subnet)
    (lease : Option Lease) (binding : Option Binding) : Options × Int :=
  let lt : Int :=
    match binding with
    | none => s.ActiveLeaseTime
    | some _ => s.ReservedLeaseTime
  let opts : Options := []
  let opts := mapSet opts OptionRenewalTimeValue (PutUint32 (toUint32 lt / 2))
  let opts := mapSet opts OptionRebindingTimeValue (PutUint32 (toUint32 lt * 3 % two32 / 4))
  let opts := s.Options.foldr (fun e o => mapSet o e.1 e.2) opts
  let opts :=
    match binding with
    | none => opts
    | some b =>
      b.Options.foldl
        (fun o v =>
          match conv v.Code v.Value with
          | none => o
          | some bytes => mapSet o v.Code bytes)
        opts
  (opts, lt)

/-! ## Runs of the allocator -/

/-- The states a subnet reaches from `s0` by calls of `find_or_get_info` and
`free_lease`, each call of `find_or_get_info` at a time of its own. -/
inductive Reachable (s0 : Subnet) : Subnet → Prop
  | start : Reachable s0 s0
  | alloc (s : Subnet) (now : Int) (nic : String) (suggest : Option Nat) :
      Reachable s0 s → Reachable s0 (find_or_get_info s now nic suggest).1
  | free (s : Subnet) (nic : String) :
      Reachable s0 s → Reachable s0 (free_lease s nic)

/-- A freshly built subnet: no leases, and a pool of
`ActiveEnd - ActiveStart + 1` clear bits. -/
def Fresh (s : Subnet) : Prop :=
  s.Leases = [] ∧ s.ActiveBits = BitSet.New (s.ActiveEnd - s.ActiveStart + 1)

/-- The address lies in the active range of the subnet. -/
def InActive (s : Subnet) (ip : Nat) : Prop :=
  IPInRange s.ActiveStart s.ActiveEnd ip = true

/-- Every lease of the table with an address in the active range has the pool
bit of its address set, the bit at `ip - ActiveStart` (I1). -/
def LeasesHaveBits (s : Subnet) : Prop :=
  ∀ mac l, mapGet s.Leases mac = some l → InActive s l.Ip →
    s.ActiveBits.Test (l.Ip - s.ActiveStart) = true

/-- No two MACs hold leases on the same address of the active range. -/
def LeasesDistinct (s : Subnet) : Prop :=
  ∀ m1 m2 l1 l2, m1 ≠ m2 → mapGet s.Leases m1 = some l1 → mapGet s.Leases m2 = some l2 →
    InActive s l1.Ip → l1.Ip ≠ l2.Ip

/-- No binding of the subnet has an address in the active range. -/
def BindingsOutside (s : Subnet) : Prop :=
  ∀ e ∈ s.Bindings, IPInRange s.ActiveStart s.ActiveEnd e.2.Ip = false

/-- Every binding address in the active range has its pool bit clear (I3). -/
def BindingBitsClear (s : Subnet) : Prop :=
  ∀ e ∈ s.Bindings, InActive s e.2.Ip → s.ActiveBits.Test (e.2.Ip - s.ActiveStart) = false

/-- The invariant of the allocator, on the entries of the lease table: the
active range ends at an IPv4 address, the pool has one bit per address of the
range, no binding lies in the range, every lease in the range has its bit set,
and entries of different MACs have different addresses in the range. -/
def PoolInv (s : Subnet) : Prop :=
  s.ActiveEnd < two32 ∧ s.ActiveBits.Len = s.ActiveEnd - s.ActiveStart + 1 ∧
  BindingsOutside s ∧
  (∀ e ∈ s.Leases, InActive s e.2.Ip → s.ActiveBits.Test (e.2.Ip - s.ActiveStart) = true) ∧
  (∀ e1 ∈ s.Leases, ∀ e2 ∈ s.Leases, e1.1 ≠ e2.1 → InActive s e1.2.Ip → e1.2.Ip ≠ e2.2.Ip)

/-- The invariant of the reaping loop of `getFreeIP` on the subnet `s`: the
table holds entries of `s` only, the pool keeps its length, and every lease
left in the range has its bit set. -/
def ReapInv (s : Subnet) (st : BitSet × List (String × Lease) × Bool) : Prop :=
  (∀ e ∈ st.2.1, e ∈ s.Leases) ∧ st.1.Len = s.ActiveBits.Len ∧
  (∀ e ∈ st.2.1, InActive s e.2.Ip → st.1.Test (e.2.Ip - s.ActiveStart) = true)

/-! ## Concrete subnets -/

/-- The address 10.0.0.10. -/
def ip10 : Nat := 167772170

/-- A subnet with the active range 10.0.0.10 to 10.0.0.12, lease times of one
and two hours, and the given pool bits, leases and bindings. -/
def mkSubnet (bits : List Bool) (leases : List (String × Lease))
    (bindings : List (String × Binding)) : Subnet :=
  { Name := "s", NextServer := none, ActiveStart := ip10, ActiveEnd := ip10 + 2,
    ActiveLeaseTime := 3600000000000, ActiveBits := ⟨bits⟩,
    ReservedLeaseTime := 7200000000000, Leases := leases, Bindings := bindings,
    Options := [], IPXE := "", Bootstrap := "" }

/-- A lease of `mac` on `ip` that expires at `t`. -/
def mkLease (ip : Nat) (mac : String) (t : Int) : Lease :=
  { Ip := ip, Mac := mac, Valid := true, ExpireTime := t }

/-- A binding of `mac` to `ip` without options. -/
def mkBinding (ip : Nat) (mac : String) : Binding :=
  { Ip := ip, Mac := mac, Options := [], NextServer := none }

def macA : String := "aa:bb:cc:dd:ee:01"
def macB : String := "aa:bb:cc:dd:ee:02"
def macC : String := "aa:bb:cc:dd:ee:03"

/-- Two leases, on 10.0.0.10 and 10.0.0.11, with their pool bits set. -/
def twoLeases : Subnet :=
  mkSubnet [true, true, false] [(macA, mkLease ip10 macA 100), (macB, mkLease (ip10 + 1) macB 1)] []

/-- A full pool of three: the lease on 10.0.0.11 has expired at time 50, the
other two have not. -/
def fullPool : Subnet :=
  mkSubnet [true, true, true]
    [(macA, mkLease ip10 macA 100), (macB, mkLease (ip10 + 1) macB 1),
     (macC, mkLease (ip10 + 2) macC 100)] []

/-- A fresh subnet of three addresses without bindings. -/
def freshPool : Subnet := mkSubnet [false, false, false] [] []

/-- A fresh subnet whose binding of `macA` lies in the active range, on
10.0.0.10. -/
def boundInside : Subnet := mkSubnet [false, false, false] [] [(macA, mkBinding ip10 macA)]

/-- A subnet where `macB`, without binding, still holds a lease on 10.0.0.50,
the address now bound to `macA`. -/
def staleLease : Subnet :=
  mkSubnet [false, false, false] [(macB, mkLease (ip10 + 40) macB 100)]
    [(macA, mkBinding (ip10 + 40) macA)]

/-- A subnet with a binding outside the active range, on 10.0.0.50, whose MAC
holds a lease on 10.0.0.11 of the pool. -/
def boundOutside : Subnet :=
  mkSubnet [false, true, false] [(macC, mkLease (ip10 + 1) macC 100)]
    [(macC, mkBinding (ip10 + 40) macC)]

/-- A fresh subnet of three addresses with one binding, of `macC` to
10.0.0.50, outside the active range. -/
def freshBound : Subnet := mkSubnet [false, false, false] [] [(macC, mkBinding (ip10 + 40) macC)]

/-- The subnet `freshPool` after `macA` and `macB` took leases and `macB` was
freed. -/
def afterFree : Subnet :=
  free_lease (find_or_get_info (find_or_get_info freshPool 0 macA none).1 0 macB none).1 macB

/-- The subnet `freshBound` after `macA`, `macC` and `macB` took leases and
`macA` was freed. -/
def afterRun : Subnet :=
  free_lease
    (find_or_get_info
      (find_or_get_info (find_or_get_info freshBound 0 macA none).1 3 macC none).1
      5 macB none).1
    macA

/-- An encoder that rejects every value. -/
def noConv : Nat → String → Option (List Nat) := fun _ _ => none

/-! ## Bit sets -/

theorem BitSet.len_Set (b : BitSet) (i : Nat) (h : i < b.Len) : (b.Set i).Len = b.Len := by
  unfold BitSet.Len at h
  simp [BitSet.Set, BitSet.Len, h]

theorem BitSet.test_Set_self (b : BitSet) (i : Nat) (h : i < b.Len) :
    (b.Set i).Test i = true := by
  unfold BitSet.Len at h
  simp [BitSet.Set, BitSet.Test, h, List.getD_eq_getElem?_getD, List.getElem?_set]

theorem BitSet.test_Set_ne (b : BitSet) (i j : Nat) (h : i < b.Len) (hj : j ≠ i) :
    (b.Set i).Test j = b.Test j := by
  unfold BitSet.Len at h
  have hij : i ≠ j := fun e => hj e.symm
  simp [BitSet.Set, BitSet.Test, h, List.getD_eq_getElem?_getD, List.getElem?_set, hij]

theorem BitSet.len_Clear (b : BitSet) (i : Nat) : (b.Clear i).Len = b.Len := by
  unfold BitSet.Clear BitSet.Len
  split <;> simp

theorem BitSet.clear_of_le (b : BitSet) (i : Nat) (h : b.Len ≤ i) : b.Clear i = b := by
  unfold BitSet.Len at h
  simp [BitSet.Clear, h]

theorem BitSet.test_Clear_ne (b : BitSet) (i j : Nat) (hj : j ≠ i) :
    (b.Clear i).Test j = b.Test j := by
  have hij : i ≠ j := fun e => hj e.symm
  unfold BitSet.Clear BitSet.Test
  split
  · rfl
  · simp [List.getD_eq_getElem?_getD, List.getElem?_set, hij]

theorem BitSet.test_of_le (b : BitSet) (i : Nat) (h : b.Len ≤ i) : b.Test i = false := by
  unfold BitSet.Len at h
  simp [BitSet.Test, List.getD_eq_getElem?_getD, List.getElem?_eq_none h]

/-! ## The scan of `firstClearBit` -/

theorem firstClearBitLoop_spec (bs : BitSet) (n i : Nat) :
    ((∀ j, i ≤ j → j < i + n → bs.Test j = true) ∧ firstClearBitLoop bs n i = (0, false)) ∨
    (∃ k, i ≤ k ∧ k < i + n ∧ bs.Test k = false ∧ (∀ j, i ≤ j → j < k → bs.Test j = true) ∧
      firstClearBitLoop bs n i = (k, true)) := by
  induction n generalizing i with
  | zero =>
    left
    exact ⟨fun j h1 h2 => by omega, rfl⟩
  | succ n ih =>
    unfold firstClearBitLoop
    cases hti : bs.Test i with
    | false =>
      right
      exact ⟨i, Nat.le_refl i, by omega, hti, fun j h1 h2 => by omega, by simp⟩
    | true =>
      rcases ih (i + 1) with ⟨hall, hr⟩ | ⟨k, h1, h2, h3, h4, hr⟩
      · left
        refine ⟨fun j h1 h2 => ?_, by simpa using hr⟩
        by_cases hji : j = i
        · rw [hji]; exact hti
        · exact hall j (by omega) (by omega)
      · right
        refine ⟨k, by omega, by omega, h3, fun j hj1 hj2 => ?_, by simpa using hr⟩
        by_cases hji : j = i
        · rw [hji]; exact hti
        · exact h4 j (by omega) hj2

theorem firstClearBit_spec (bs : BitSet) :
    ((∀ j, j < bs.Len → bs.Test j = true) ∧ firstClearBit bs = (0, false)) ∨
    (∃ k, k < bs.Len ∧ bs.Test k = false ∧ (∀ j, j < k → bs.Test j = true) ∧
      firstClearBit bs = (k, true)) := by
  rcases firstClearBitLoop_spec bs bs.Len 0 with ⟨hall, hr⟩ | ⟨k, _, h2, h3, h4, hr⟩
  · left
    exact ⟨fun j hj => hall j (Nat.zero_le j) (by omega), hr⟩
  · right
    exact ⟨k, by omega, h3, fun j hj => h4 j (Nat.zero_le j) hj, hr⟩

/-! ## Conversions and address arithmetic -/

theorem toUint32_toInt (i : Nat) : toUint32 (toInt i) = i % two32 := by
  unfold toUint32 toInt two32 two64
  split <;> omega

theorem IPAdd_toInt (start i : Nat) : IPAdd start (toInt i) = (start + i) % two32 := by
  simp only [IPAdd, toUint32_toInt, two32]
  omega

theorem IPInRange_iff (a b ip : Nat) : IPInRange a b ip = true ↔ a ≤ ip ∧ ip ≤ b := by
  simp [IPInRange, IPLess]

theorem IPInRange_false_iff (a b ip : Nat) : IPInRange a b ip = false ↔ ip < a ∨ b < ip := by
  rw [← Bool.not_eq_true, IPInRange_iff]
  omega

theorem clearIndex_start (s : Subnet) : clearIndex s s.ActiveStart = 0 := by
  unfold clearIndex toUint IPRange two64
  omega

theorem clearIndex_above (s : Subnet) (ip : Nat) (h1 : s.ActiveStart < ip) (h2 : ip < two32) :
    18446744069414584320 ≤ clearIndex s ip := by
  unfold clearIndex toUint IPRange two64
  unfold two32 at h2
  omega

/-! ## Maps -/

theorem mapGet_mem {κ α : Type} [DecidableEq κ] (m : List (κ × α)) (k : κ) (v : α)
    (h : mapGet m k = some v) : (k, v) ∈ m := by
  induction m with
  | nil => simp [mapGet] at h
  | cons e rest ih =>
    obtain ⟨k', v'⟩ := e
    unfold mapGet at h
    by_cases hk : k' = k
    · simp [hk] at h
      simp [hk, h]
    · simp [hk] at h
      exact List.mem_cons_of_mem _ (ih h)

theorem mem_mapDelete {κ α : Type} [DecidableEq κ] (m : List (κ × α)) (k : κ) (e : κ × α) :
    e ∈ mapDelete m k ↔ e ∈ m ∧ e.1 ≠ k := by
  simp [mapDelete, List.mem_filter]

theorem mapGet_mapDelete_self {κ α : Type} [DecidableEq κ] (m : List (κ × α)) (k : κ) :
    mapGet (mapDelete m k) k = none := by
  induction m with
  | nil => rfl
  | cons e rest ih =>
    by_cases hk : e.1 = k
    · have : mapDelete (e :: rest) k = mapDelete rest k := by simp [mapDelete, hk]
      rw [this]; exact ih
    · have : mapDelete (e :: rest) k = e :: mapDelete rest k := by simp [mapDelete, hk]
      rw [this]
      obtain ⟨k', v'⟩ := e
      simp only [mapGet]
      rw [if_neg hk]; exact ih

theorem mapGet_mapDelete_ne {κ α : Type} [DecidableEq κ] (m : List (κ × α)) (k k' : κ)
    (hne : k' ≠ k) : mapGet (mapDelete m k) k' = mapGet m k' := by
  induction m with
  | nil => rfl
  | cons e rest ih =>
    obtain ⟨k0, v0⟩ := e
    by_cases hk : k0 = k
    · have h1 : mapDelete ((k0, v0) :: rest) k = mapDelete rest k := by simp [mapDelete, hk]
      have h2 : k0 ≠ k' := by rw [hk]; exact fun e => hne e.symm
      rw [h1, ih]
      simp only [mapGet]
      rw [if_neg h2]
    · have h1 : mapDelete ((k0, v0) :: rest) k = (k0, v0) :: mapDelete rest k := by
        simp [mapDelete, hk]
      rw [h1]
      simp only [mapGet]
      rw [ih]

theorem mapGet_mapSet_self {κ α : Type} [DecidableEq κ] (m : List (κ × α)) (k : κ) (v : α) :
    mapGet (mapSet m k v) k = some v := by
  simp [mapSet, mapGet]

theorem mapGet_mapSet_ne {κ α : Type} [DecidableEq κ] (m : List (κ × α)) (k k' : κ) (v : α)
    (hne : k' ≠ k) : mapGet (mapSet m k v) k' = mapGet m k' := by
  have h2 : k ≠ k' := fun e => hne e.symm
  simp only [mapSet, mapGet]
  rw [if_neg h2]
  exact mapGet_mapDelete_ne m k k' hne

/-! ## `free_lease` -/

theorem free_lease_removes_entry (s : Subnet) (nic : String) (l : Lease)
    (hl : mapGet s.Leases nic = some l) :
    mapGet (free_lease s nic).Leases nic = none ∧
    ∀ k, k ≠ nic → mapGet (free_lease s nic).Leases k = mapGet s.Leases k := by
  unfold free_lease
  rw [hl]
  exact ⟨mapGet_mapDelete_self _ _, fun k hk => mapGet_mapDelete_ne _ _ _ hk⟩

theorem free_lease_clears_at_start (s : Subnet) (nic : String) (l : Lease)
    (hl : mapGet s.Leases nic = some l) (hip : l.Ip = s.ActiveStart)
    (hin : InActive s l.Ip) : (free_lease s nic).ActiveBits = s.ActiveBits.Clear 0 := by
  unfold InActive at hin
  unfold free_lease
  rw [hl]
  simp only
  rw [if_pos hin, hip, clearIndex_start]

theorem free_lease_pool_unchanged_above_start (s : Subnet) (nic : String) (l : Lease)
    (hl : mapGet s.Leases nic = some l) (hip : l.Ip ≠ s.ActiveStart)
    (hin : InActive s l.Ip) (hend : s.ActiveEnd < two32) (hlen : s.ActiveBits.Len ≤ two32) :
    (free_lease s nic).ActiveBits = s.ActiveBits := by
  have hr := (IPInRange_iff _ _ _).1 hin
  have hbig := clearIndex_above s l.Ip (by omega) (by unfold two32 at hend ⊢; omega)
  unfold InActive at hin
  unfold free_lease
  rw [hl]
  simp only
  rw [if_pos hin, BitSet.clear_of_le _ _ (by unfold two32 at hlen; omega)]

/-- C1, at a failing input.  In the subnet `twoLeases` the MAC `macB` holds a
lease on 10.0.0.11, inside the active range 10.0.0.10 to 10.0.0.12, with pool
bit 1 set.  After `free_lease` the lease entry is gone and the entry of `macA`
is as before, but the pool is unchanged: bit 1, the bit at
`lease.ip - active_start`, is still set.  The index handed to `Clear` is
`uint(active_start - lease.ip)`, here 2^64 - 1, outside the bit set. -/
theorem free_lease_keeps_bit_above_start :
    mapGet twoLeases.Leases macB = some (mkLease (ip10 + 1) macB 1) ∧
    IPInRange twoLeases.ActiveStart twoLeases.ActiveEnd (ip10 + 1) = true ∧
    clearIndex twoLeases (ip10 + 1) = 18446744073709551615 ∧
    mapGet (free_lease twoLeases macB).Leases macB = none ∧
    mapGet (free_lease twoLeases macB).Leases macA = mapGet twoLeases.Leases macA ∧
    (free_lease twoLeases macB).ActiveBits = twoLeases.ActiveBits ∧
    (free_lease twoLeases macB).ActiveBits.Test (ip10 + 1 - twoLeases.ActiveStart) = true := by
  decide

/-! ## `firstClearBit` and `getFreeIP` -/

theorem getFreeIP_of_clear (s : Subnet) (now : Int) (i : Nat)
    (h : firstClearBit s.ActiveBits = (i, true)) :
    getFreeIP s now =
      ({ s with ActiveBits := s.ActiveBits.Set i }, some (IPAdd s.ActiveStart (toInt i)), true) := by
  simp [getFreeIP, h]

theorem getFreeIP_address_of_clear (s : Subnet) (now : Int)
    (h : ∃ j, j < s.ActiveBits.Len ∧ s.ActiveBits.Test j = false) :
    (getFreeIP s now).2.1 = some ((s.ActiveStart + (firstClearBit s.ActiveBits).1) % two32) := by
  obtain ⟨j, hj1, hj2⟩ := h
  rcases firstClearBit_spec s.ActiveBits with ⟨hall, _⟩ | ⟨k, _, _, _, hr⟩
  · rw [hall j hj1] at hj2
    cases hj2
  · rw [getFreeIP_of_clear s now k hr, hr, IPAdd_toInt]

/-- C2.  `firstClearBit` reports `found = false` exactly when every bit of the
set is set.  When the pool of a subnet has a clear bit, `firstClearBit` finds
the lowest clear index `i`, and `getFreeIP` returns the address
`active_start + i` (computed in 32-bit address arithmetic, so it is the number
`active_start + i` whenever that is an IPv4 address), sets bit `i`, and leaves
every other bit, the length of the bit set, the lease table and all other
fields of the subnet unchanged. -/
theorem getFreeIP_lowest_clear_bit :
    (∀ bs : BitSet, (firstClearBit bs).2 = false ↔ ∀ j, j < bs.Len → bs.Test j = true) ∧
    ∀ (s : Subnet) (now : Int), (∃ j, j < s.ActiveBits.Len ∧ s.ActiveBits.Test j = false) →
      (firstClearBit s.ActiveBits).2 = true ∧
      (firstClearBit s.ActiveBits).1 < s.ActiveBits.Len ∧
      s.ActiveBits.Test (firstClearBit s.ActiveBits).1 = false ∧
      (∀ j, j < (firstClearBit s.ActiveBits).1 → s.ActiveBits.Test j = true) ∧
      (getFreeIP s now).2.1 =
        some ((s.ActiveStart + (firstClearBit s.ActiveBits).1) % two32) ∧
      (s.ActiveStart + (firstClearBit s.ActiveBits).1 < two32 →
        (getFreeIP s now).2.1 = some (s.ActiveStart + (firstClearBit s.ActiveBits).1)) ∧
      (getFreeIP s now).1.ActiveBits.Test (firstClearBit s.ActiveBits).1 = true ∧
      (∀ j, j ≠ (firstClearBit s.ActiveBits).1 →
        (getFreeIP s now).1.ActiveBits.Test j = s.ActiveBits.Test j) ∧
      (getFreeIP s now).1.ActiveBits.Len = s.ActiveBits.Len ∧
      (getFreeIP s now).1.Leases = s.Leases ∧
      (getFreeIP s now).1 =
        { s with ActiveBits := s.ActiveBits.Set (firstClearBit s.ActiveBits).1 } := by
  constructor
  · intro bs
    rcases firstClearBit_spec bs with ⟨hall, hr⟩ | ⟨k, h1, h2, _, hr⟩
    · simp [hr]; exact hall
    · rw [hr]
      constructor
      · intro h; simp at h
      · intro h
        rw [h k h1] at h2
        simp at h2
  · intro s now ⟨j, hj1, hj2⟩
    rcases firstClearBit_spec s.ActiveBits with ⟨hall, _⟩ | ⟨k, h1, h2, h3, hr⟩
    · rw [hall j hj1] at hj2
      simp at hj2
    · have hg := getFreeIP_of_clear s now k hr
      rw [hg, hr]
      refine ⟨rfl, h1, h2, h3, ?_, ?_, ?_, ?_, ?_, rfl, rfl⟩
      · simp only [IPAdd_toInt]
      · intro hlt
        simp only [IPAdd_toInt]
        rw [Nat.mod_eq_of_lt hlt]
      · exact BitSet.test_Set_self _ _ h1
      · intro j' hj'
        exact BitSet.test_Set_ne _ _ _ h1 hj'
      · exact BitSet.len_Set _ _ h1

/-- C2 at the subnet `twoLeases`, whose pool is set, set, clear: the address
returned is 10.0.0.12. -/
theorem getFreeIP_lowest_clear_bit_witness :
    (∃ j, j < twoLeases.ActiveBits.Len ∧ twoLeases.ActiveBits.Test j = false) ∧
    (getFreeIP twoLeases 0).2.1 = some (ip10 + 2) ∧
    (getFreeIP twoLeases 0).1.Leases = twoLeases.Leases :=
  ⟨⟨2, by decide, by decide⟩,
   (getFreeIP_lowest_clear_bit.2 twoLeases 0 ⟨2, by decide, by decide⟩).2.2.2.2.1,
   (getFreeIP_lowest_clear_bit.2 twoLeases 0 ⟨2, by decide, by decide⟩).2.2.2.2.2.2.2.2.2.1⟩

/-- C4, at a failing input.  The pool of `fullPool` is full and, at time 50,
the lease of `macB` on 10.0.0.11 (inside the active range, pool bit 1) has
expired.  `getFreeIP` removes that lease but leaves bit 1 set, and returns no
address, with `save_me` true.  The same slip as in `free_lease`: the index
handed to `Clear` is `uint(active_start - lease.ip)`. -/
theorem getFreeIP_reaps_without_clearing :
    firstClearBit fullPool.ActiveBits = (0, false) ∧
    mapGet fullPool.Leases macB = some (mkLease (ip10 + 1) macB 1) ∧
    (mkLease (ip10 + 1) macB 1).ExpireTime < 50 ∧
    IPInRange fullPool.ActiveStart fullPool.ActiveEnd (ip10 + 1) = true ∧
    (getFreeIP fullPool 50).2 = (none, true) ∧
    mapGet (getFreeIP fullPool 50).1.Leases macB = none ∧
    (getFreeIP fullPool 50).1.ActiveBits = fullPool.ActiveBits ∧
    (getFreeIP fullPool 50).1.ActiveBits.Test 1 = true := by
  decide

/-! ## `build_options` -/

/-- C5, at a failing input.  The subnet `freshPool` has no options and an
active lease time of 3600 seconds, held as 3600000000000 nanoseconds.  With no
binding `build_options` returns that lease time, but option 58 is the encoding
of 408702976 and option 59 that of 613054464, not those of 1800 and 2700: the
code takes `uint32(lt)` of the nanosecond count, without a division by
`time.Second`. -/
theorem build_options_times_not_in_seconds :
    freshPool.ActiveLeaseTime = 3600 * 1000000000 ∧
    (build_options noConv freshPool none none).2 = freshPool.ActiveLeaseTime ∧
    mapGet (build_options noConv freshPool none none).1 58 = some [24, 92, 80, 0] ∧
    mapGet (build_options noConv freshPool none none).1 59 = some [36, 138, 120, 0] ∧
    PutUint32 408702976 = [24, 92, 80, 0] ∧
    PutUint32 613054464 = [36, 138, 120, 0] ∧
    PutUint32 (3600 / 2) = [0, 0, 7, 8] ∧
    PutUint32 (3600 * 3 / 4) = [0, 0, 10, 140] := by
  decide

/-! ## `find_or_get_info` -/

theorem getFreeIP_fields (s : Subnet) (now : Int) :
    (getFreeIP s now).1.Bindings = s.Bindings ∧
    (getFreeIP s now).1.ActiveStart = s.ActiveStart ∧
    (getFreeIP s now).1.ActiveEnd = s.ActiveEnd := by
  unfold getFreeIP
  simp only
  split
  · exact ⟨rfl, rfl, rfl⟩
  · split
    · exact ⟨rfl, rfl, rfl⟩
    · exact ⟨rfl, rfl, rfl⟩

theorem slowPath_bound (s : Subnet) (now : Int) (nic : String) (b : Binding)
    (hb : mapGet s.Bindings nic = some b)
    (hl : ∀ l, mapGet s.Leases nic = some l → l.Ip ≠ b.Ip) :
    slowPath s now nic = storeLease s nic b.Ip (some b) := by
  unfold slowPath
  rw [hb]
  cases hlease : mapGet s.Leases nic with
  | none => simp
  | some l => simp [hl l hlease]

theorem slowPath_unbound (s : Subnet) (now : Int) (nic : String)
    (hb : mapGet s.Bindings nic = none) :
    slowPath s now nic =
      match (getFreeIP s now).2.1 with
      | none => ((getFreeIP s now).1, none, none)
      | some ip => storeLease (getFreeIP s now).1 nic ip none := by
  unfold slowPath
  rw [hb]
  cases hlease : mapGet s.Leases nic <;> simp

/-- C3.  When `mac` has the binding `b`, `find_or_get_info` returns `b` and a
lease on the address of `b`; that lease is the entry of `mac` in the lease
table afterwards, and the pool and the binding table are as before, also when
`mac` held a lease on another address.  The lease carries the MAC `mac`; for
a lease that was already stored this is the keying of the table by MAC, the
hypothesis `hkey`. -/
theorem find_or_get_info_binding (s : Subnet) (now : Int) (mac : String) (suggest : Option Nat)
    (b : Binding) (hb : mapGet s.Bindings mac = some b)
    (hkey : ∀ l, mapGet s.Leases mac = some l → l.Mac = mac) :
    ∃ l, (find_or_get_info s now mac suggest).2 = (some l, some b) ∧
      l.Ip = b.Ip ∧ l.Mac = mac ∧
      mapGet (find_or_get_info s now mac suggest).1.Leases mac = some l ∧
      (find_or_get_info s now mac suggest).1.ActiveBits = s.ActiveBits ∧
      (find_or_get_info s now mac suggest).1.Bindings = s.Bindings := by
  unfold find_or_get_info
  simp only [hb]
  cases hlease : mapGet s.Leases mac with
  | none =>
    simp only
    rw [slowPath_bound s now mac b hb (by intro l hl; rw [hlease] at hl; cases hl)]
    exact ⟨_, rfl, rfl, rfl, mapGet_mapSet_self _ _ _, rfl, rfl⟩
  | some l =>
    simp only
    by_cases hip : l.Ip = b.Ip
    · rw [if_pos hip]
      exact ⟨l, rfl, hip, hkey l hlease, hlease, rfl, rfl⟩
    · rw [if_neg hip]
      rw [slowPath_bound s now mac b hb
        (by intro l' hl'; rw [hlease] at hl'; cases hl'; exact hip)]
      exact ⟨_, rfl, rfl, rfl, mapGet_mapSet_self _ _ _, rfl, rfl⟩

/-- C3 at the subnet `boundOutside`: `macC` is bound to 10.0.0.50 and holds a
lease on 10.0.0.11; it gets a lease on 10.0.0.50 and the pool keeps its bits. -/
theorem find_or_get_info_binding_witness :
    mapGet boundOutside.Bindings macC = some (mkBinding (ip10 + 40) macC) ∧
    ∃ l, (find_or_get_info boundOutside 7 macC none).2 =
        (some l, some (mkBinding (ip10 + 40) macC)) ∧
      l.Ip = (mkBinding (ip10 + 40) macC).Ip ∧ l.Mac = macC ∧
      mapGet (find_or_get_info boundOutside 7 macC none).1.Leases macC = some l ∧
      (find_or_get_info boundOutside 7 macC none).1.ActiveBits = boundOutside.ActiveBits ∧
      (find_or_get_info boundOutside 7 macC none).1.Bindings = boundOutside.Bindings :=
  ⟨by decide,
   find_or_get_info_binding boundOutside 7 macC none (mkBinding (ip10 + 40) macC) (by decide)
     (by intro l hl
         have h : mapGet boundOutside.Leases macC = some (mkLease (ip10 + 1) macC 100) := by decide
         rw [h] at hl
         cases hl
         rfl)⟩

theorem find_or_get_info_stable (s : Subnet) (now : Int) (mac : String) (suggest : Option Nat)
    (l : Lease) (ob : Option Binding) (hl : mapGet s.Leases mac = some l)
    (hb : mapGet s.Bindings mac = ob) (hip : ∀ b, ob = some b → l.Ip = b.Ip) :
    find_or_get_info s now mac suggest = (s, some l, ob) := by
  unfold find_or_get_info
  simp only [hl, hb]
  cases ob with
  | none => rfl
  | some b => simp [hip b rfl]

theorem find_or_get_info_settles (s : Subnet) (now : Int) (mac : String) (suggest : Option Nat)
    (L : Lease) (h : (find_or_get_info s now mac suggest).2.1 = some L) :
    mapGet (find_or_get_info s now mac suggest).1.Leases mac = some L ∧
    mapGet (find_or_get_info s now mac suggest).1.Bindings mac =
      (find_or_get_info s now mac suggest).2.2 ∧
    ∀ b, (find_or_get_info s now mac suggest).2.2 = some b → L.Ip = b.Ip := by
  cases hb : mapGet s.Bindings mac with
  | some b =>
    by_cases hex : ∃ l, mapGet s.Leases mac = some l ∧ l.Ip = b.Ip
    · obtain ⟨l, hl, hip⟩ := hex
      have hst := find_or_get_info_stable s now mac suggest l (some b) hl hb
        (by intro b' hb'; cases hb'; exact hip)
      rw [hst] at h ⊢
      simp only [Option.some.injEq] at h
      subst h
      exact ⟨hl, hb, by intro b' hb'; cases hb'; exact hip⟩
    · have hne : ∀ l, mapGet s.Leases mac = some l → l.Ip ≠ b.Ip :=
        fun l hl hip => hex ⟨l, hl, hip⟩
      have hfo : find_or_get_info s now mac suggest = storeLease s mac b.Ip (some b) := by
        unfold find_or_get_info
        simp only [hb]
        cases hlease : mapGet s.Leases mac with
        | none => exact slowPath_bound s now mac b hb hne
        | some l =>
          simp only
          rw [if_neg (hne l hlease)]
          exact slowPath_bound s now mac b hb hne
      rw [hfo] at h ⊢
      simp only [storeLease, Option.some.injEq] at h ⊢
      subst h
      exact ⟨mapGet_mapSet_self _ _ _, hb, by intro b' hb'; cases hb'; rfl⟩
  | none =>
    cases hlease : mapGet s.Leases mac with
    | some l =>
      have hst := find_or_get_info_stable s now mac suggest l none hlease hb
        (by intro b' hb'; cases hb')
      rw [hst] at h ⊢
      simp only [Option.some.injEq] at h
      subst h
      exact ⟨hlease, hb, by intro b' hb'; cases hb'⟩
    | none =>
      have hfo : find_or_get_info s now mac suggest = slowPath s now mac := by
        unfold find_or_get_info
        simp only [hlease]
      rw [hfo, slowPath_unbound s now mac hb] at h ⊢
      cases hg : (getFreeIP s now).2.1 with
      | none =>
        rw [hg] at h
        simp at h
      | some ip =>
        rw [hg] at h
        simp only [storeLease, Option.some.injEq] at h ⊢
        subst h
        refine ⟨mapGet_mapSet_self _ _ _, ?_, by intro b' hb'; cases hb'⟩
        show mapGet (getFreeIP s now).1.Bindings mac = none
        rw [(getFreeIP_fields s now).1]
        exact hb

/-- C9.  When `find_or_get_info(mac, s1)` returns a lease `L`, a second call
`find_or_get_info(mac, s2)` on the resulting subnet, at any time `now2`,
returns the same lease (so the same address and MAC) and the same binding,
and leaves the subnet, with its lease table and pool, as it was. -/
theorem find_or_get_info_idempotent (s : Subnet) (now1 now2 : Int) (mac : String)
    (s1 s2 : Option Nat) (L : Lease)
    (h : (find_or_get_info s now1 mac s1).2.1 = some L) :
    ∃ L2, (find_or_get_info (find_or_get_info s now1 mac s1).1 now2 mac s2).2.1 = some L2 ∧
      L2.Ip = L.Ip ∧ L2.Mac = L.Mac ∧
      (find_or_get_info (find_or_get_info s now1 mac s1).1 now2 mac s2).2.2 =
        (find_or_get_info s now1 mac s1).2.2 ∧
      (find_or_get_info (find_or_get_info s now1 mac s1).1 now2 mac s2).1.Leases =
        (find_or_get_info s now1 mac s1).1.Leases ∧
      (find_or_get_info (find_or_get_info s now1 mac s1).1 now2 mac s2).1.ActiveBits =
        (find_or_get_info s now1 mac s1).1.ActiveBits := by
  obtain ⟨h1, h2, h3⟩ := find_or_get_info_settles s now1 mac s1 L h
  rw [find_or_get_info_stable _ now2 mac s2 L _ h1 h2 h3]
  exact ⟨L, rfl, rfl, rfl, rfl, rfl, rfl⟩

/-- C9 at the fresh subnet `freshPool`: `macA` gets 10.0.0.10 at time 0 and
again at time 9, whatever the suggestions. -/
theorem find_or_get_info_idempotent_witness :
    (find_or_get_info freshPool 0 macA none).2.1 = some (mkLease ip10 macA 0) ∧
    ∃ L2, (find_or_get_info (find_or_get_info freshPool 0 macA none).1 9 macA
        (some (ip10 + 2))).2.1 = some L2 ∧
      L2.Ip = (mkLease ip10 macA 0).Ip ∧ L2.Mac = (mkLease ip10 macA 0).Mac ∧
      (find_or_get_info (find_or_get_info freshPool 0 macA none).1 9 macA
        (some (ip10 + 2))).2.2 = (find_or_get_info freshPool 0 macA none).2.2 ∧
      (find_or_get_info (find_or_get_info freshPool 0 macA none).1 9 macA
        (some (ip10 + 2))).1.Leases = (find_or_get_info freshPool 0 macA none).1.Leases ∧
      (find_or_get_info (find_or_get_info freshPool 0 macA none).1 9 macA
        (some (ip10 + 2))).1.ActiveBits =
        (find_or_get_info freshPool 0 macA none).1.ActiveBits :=
  ⟨by decide,
   find_or_get_info_idempotent freshPool 0 9 macA none (some (ip10 + 2)) (mkLease ip10 macA 0)
     (by decide)⟩

/-- C10 refuted at the fresh subnet `freshPool`.  `macA` has neither lease nor
binding; the suggested address 10.0.0.11 lies in the active range, its pool
bit 1 is clear and no binding has it; yet the lease returned is on 10.0.0.10,
the lowest free address. -/
theorem find_or_get_info_suggestion_not_honored :
    mapGet freshPool.Leases macA = none ∧
    mapGet freshPool.Bindings macA = none ∧
    IPInRange freshPool.ActiveStart freshPool.ActiveEnd (ip10 + 1) = true ∧
    freshPool.ActiveBits.Test (ip10 + 1 - freshPool.ActiveStart) = false ∧
    freshPool.Bindings = [] ∧
    (find_or_get_info freshPool 0 macA (some (ip10 + 1))).2.1 = some (mkLease ip10 macA 0) ∧
    (mkLease ip10 macA 0).Ip ≠ ip10 + 1 := by
  decide

/-- C10 as amended.  The suggested address is never read: for every subnet,
MAC and suggestion the result of `find_or_get_info` is the one obtained with
no suggestion.  For a MAC with neither lease nor binding and a pool with a
clear bit, the lease returned is on `active_start + i` (in 32-bit address
arithmetic) for the lowest clear index `i`, whatever was suggested. -/
theorem find_or_get_info_ignores_suggestion (s : Subnet) (now : Int) (mac : String)
    (suggest : Option Nat) :
    find_or_get_info s now mac suggest = find_or_get_info s now mac none ∧
    (mapGet s.Leases mac = none → mapGet s.Bindings mac = none →
      (∃ j, j < s.ActiveBits.Len ∧ s.ActiveBits.Test j = false) →
      (find_or_get_info s now mac suggest).2.1 =
        some { Ip := (s.ActiveStart + (firstClearBit s.ActiveBits).1) % two32,
               Mac := mac, Valid := true, ExpireTime := 0 }) := by
  refine ⟨rfl, fun hl hb hclear => ?_⟩
  have hfo : find_or_get_info s now mac suggest = slowPath s now mac := by
    unfold find_or_get_info
    simp only [hl]
  rw [hfo, slowPath_unbound s now mac hb, getFreeIP_address_of_clear s now hclear]
  rfl

/-- C10 as amended, at the fresh subnet `freshPool` with the suggestion
10.0.0.11: the lease is on 10.0.0.10. -/
theorem find_or_get_info_ignores_suggestion_witness :
    mapGet freshPool.Leases macA = none ∧ mapGet freshPool.Bindings macA = none ∧
    (∃ j, j < freshPool.ActiveBits.Len ∧ freshPool.ActiveBits.Test j = false) ∧
    (find_or_get_info freshPool 0 macA (some (ip10 + 1))).2.1 =
      some { Ip := (freshPool.ActiveStart + (firstClearBit freshPool.ActiveBits).1) % two32,
             Mac := macA, Valid := true, ExpireTime := 0 } :=
  ⟨by decide, by decide, ⟨0, by decide, by decide⟩,
   (find_or_get_info_ignores_suggestion freshPool 0 macA (some (ip10 + 1))).2
     (by decide) (by decide) ⟨0, by decide, by decide⟩⟩

/-! ## Allocation and bindings -/

theorem reap_fold_len (s : Subnet) (now : Int) (es : List (String × Lease))
    (st : BitSet × List (String × Lease) × Bool) :
    (es.foldl (reapStep s now) st).1.Len = st.1.Len := by
  induction es generalizing st with
  | nil => rfl
  | cons e rest ih =>
    rw [List.foldl_cons, ih]
    unfold reapStep
    split
    · simp only
      split
      · exact BitSet.len_Clear _ _
      · rfl
    · rfl

theorem reap_len (s : Subnet) (now : Int) : (reap s now).1.Len = s.ActiveBits.Len :=
  reap_fold_len s now s.Leases _

theorem getFreeIP_address (s : Subnet) (now : Int) (ip : Nat)
    (h : (getFreeIP s now).2.1 = some ip) :
    ∃ i, i < s.ActiveBits.Len ∧ ip = (s.ActiveStart + i) % two32 := by
  unfold getFreeIP at h
  simp only at h
  rcases firstClearBit_spec s.ActiveBits with ⟨_, hr⟩ | ⟨k, hk, _, _, hr⟩
  · rw [hr] at h
    simp only [Bool.false_eq_true, if_false] at h
    rcases firstClearBit_spec (reap s now).1 with ⟨_, hr2⟩ | ⟨k, hk, _, _, hr2⟩
    · rw [hr2] at h
      simp at h
    · rw [hr2] at h
      simp only [if_true, Option.some.injEq] at h
      rw [reap_len] at hk
      exact ⟨k, hk, by rw [← h, IPAdd_toInt]⟩
  · rw [hr] at h
    simp only [if_true, Option.some.injEq] at h
    exact ⟨k, hk, by rw [← h, IPAdd_toInt]⟩

/-- C6 refuted.  In `boundInside` the only binding, of `macA`, is on
10.0.0.10, inside the active range, and its pool bit is clear, so I3 holds;
`macB` has no binding and is given a lease on 10.0.0.10.  In `staleLease` the
only binding lies outside the active range, so I3 holds, and `macB`, without
binding, is returned the lease it already holds on the bound address
10.0.0.50. -/
theorem find_or_get_info_returns_bound_address :
    (BindingBitsClear boundInside ∧ mapGet boundInside.Bindings macB = none ∧
      (find_or_get_info boundInside 0 macB none).2.1 = some (mkLease ip10 macB 0) ∧
      (macA, mkBinding ip10 macA) ∈ boundInside.Bindings ∧
      (mkBinding ip10 macA).Ip = (mkLease ip10 macB 0).Ip) ∧
    (BindingBitsClear staleLease ∧ mapGet staleLease.Bindings macB = none ∧
      (find_or_get_info staleLease 0 macB none).2.1 = some (mkLease (ip10 + 40) macB 100) ∧
      (macA, mkBinding (ip10 + 40) macA) ∈ staleLease.Bindings ∧
      (mkBinding (ip10 + 40) macA).Ip = (mkLease (ip10 + 40) macB 100).Ip) := by
  unfold BindingBitsClear InActive
  decide

/-- C6 as amended.  Take a subnet whose active range ends at an IPv4 address
and whose pool has no more bits than the range has addresses, in which no
binding address lies in the active range (so that I3 holds), and a MAC without
binding that holds no lease on a binding address.  Then the lease returned by
`find_or_get_info` is on no address of the binding table. -/
theorem find_or_get_info_avoids_bindings (s : Subnet) (now : Int) (mac : String)
    (suggest : Option Nat) (hend : s.ActiveEnd < two32)
    (hlen : s.ActiveBits.Len ≤ s.ActiveEnd + 1 - s.ActiveStart)
    (hout : BindingsOutside s) (hb : mapGet s.Bindings mac = none)
    (hown : ∀ l, mapGet s.Leases mac = some l → ∀ e ∈ s.Bindings, e.2.Ip ≠ l.Ip) :
    BindingBitsClear s ∧
    ∀ l, (find_or_get_info s now mac suggest).2.1 = some l →
      ∀ e ∈ s.Bindings, e.2.Ip ≠ l.Ip := by
  constructor
  · intro e he hin
    rw [InActive, hout e he] at hin
    cases hin
  · intro l hres e he
    cases hlease : mapGet s.Leases mac with
    | some l0 =>
      rw [find_or_get_info_stable s now mac suggest l0 none hlease hb
        (by intro b' hb'; cases hb')] at hres
      simp only [Option.some.injEq] at hres
      subst hres
      exact hown l0 hlease e he
    | none =>
      have hfo : find_or_get_info s now mac suggest = slowPath s now mac := by
        unfold find_or_get_info
        simp only [hlease]
      rw [hfo, slowPath_unbound s now mac hb] at hres
      cases hg : (getFreeIP s now).2.1 with
      | none =>
        rw [hg] at hres
        simp at hres
      | some ip =>
        rw [hg] at hres
        simp only [storeLease, Option.some.injEq] at hres
        subst hres
        obtain ⟨i, hi, hip⟩ := getFreeIP_address s now ip hg
        have ho := (IPInRange_false_iff _ _ _).1 (hout e he)
        show e.2.Ip ≠ ip
        unfold two32 at hend hip
        omega

/-- C6 as amended, at the subnet `boundOutside` (one binding, on 10.0.0.50,
outside the active range): `macA` has no binding and no lease. -/
theorem find_or_get_info_avoids_bindings_witness :
    boundOutside.ActiveEnd < two32 ∧
    boundOutside.ActiveBits.Len ≤ boundOutside.ActiveEnd + 1 - boundOutside.ActiveStart ∧
    BindingsOutside boundOutside ∧ mapGet boundOutside.Bindings macA = none ∧
    (BindingBitsClear boundOutside ∧
      ∀ l, (find_or_get_info boundOutside 0 macA none).2.1 = some l →
        ∀ e ∈ boundOutside.Bindings, e.2.Ip ≠ l.Ip) :=
  ⟨by decide, by decide, by unfold BindingsOutside; decide, by decide,
   find_or_get_info_avoids_bindings boundOutside 0 macA none (by decide) (by decide)
     (by unfold BindingsOutside; decide) (by decide)
     (by intro l hl
         have h : mapGet boundOutside.Leases macA = none := by decide
         rw [h] at hl
         cases hl)⟩

/-! ## The pool invariant -/

theorem clear_step_inv (s : Subnet) (hinv : PoolInv s)
    (st : BitSet × List (String × Lease) × Bool) (hst : ReapInv s st)
    (e : String × Lease) (he : e ∈ s.Leases) (flag : Bool) :
    ReapInv s
      (if IPInRange s.ActiveStart s.ActiveEnd e.2.Ip then st.1.Clear (clearIndex s e.2.Ip)
        else st.1,
       mapDelete st.2.1 e.1, flag) := by
  obtain ⟨hend, hlen, _, _, hdist⟩ := hinv
  obtain ⟨hsub, hl, hbits⟩ := hst
  refine ⟨?_, ?_, ?_⟩
  · intro x hx
    exact hsub x ((mem_mapDelete _ _ _).1 hx).1
  · show (if IPInRange s.ActiveStart s.ActiveEnd e.2.Ip then st.1.Clear (clearIndex s e.2.Ip)
        else st.1).Len = s.ActiveBits.Len
    split
    · rw [BitSet.len_Clear]; exact hl
    · exact hl
  · intro x hx hin
    obtain ⟨hx1, hx2⟩ := (mem_mapDelete _ _ _).1 hx
    have hold := hbits x hx1 hin
    show (if IPInRange s.ActiveStart s.ActiveEnd e.2.Ip then st.1.Clear (clearIndex s e.2.Ip)
        else st.1).Test (x.2.Ip - s.ActiveStart) = true
    by_cases hein : IPInRange s.ActiveStart s.ActiveEnd e.2.Ip = true
    · rw [if_pos hein]
      have hne : x.2.Ip ≠ e.2.Ip := hdist x (hsub x hx1) e he hx2 hin
      have hxr := (IPInRange_iff _ _ _).1 hin
      have her := (IPInRange_iff _ _ _).1 hein
      by_cases hes : e.2.Ip = s.ActiveStart
      · rw [hes, clearIndex_start, BitSet.test_Clear_ne _ _ _ (by omega)]
        exact hold
      · have hbig := clearIndex_above s e.2.Ip (by omega) (by unfold two32 at hend ⊢; omega)
        rw [BitSet.clear_of_le _ _ (by rw [hl, hlen]; unfold two32 at hend; omega)]
        exact hold
    · rw [if_neg hein]
      exact hold

theorem reapStep_inv (s : Subnet) (now : Int) (hinv : PoolInv s)
    (st : BitSet × List (String × Lease) × Bool) (hst : ReapInv s st)
    (e : String × Lease) (he : e ∈ s.Leases) : ReapInv s (reapStep s now st e) := by
  unfold reapStep
  split
  · exact clear_step_inv s hinv st hst e he true
  · exact hst

theorem reap_fold_inv (s : Subnet) (now : Int) (hinv : PoolInv s)
    (es : List (String × Lease)) (st : BitSet × List (String × Lease) × Bool)
    (hes : ∀ e ∈ es, e ∈ s.Leases) (hst : ReapInv s st) :
    ReapInv s (es.foldl (reapStep s now) st) := by
  induction es generalizing st with
  | nil => exact hst
  | cons e rest ih =>
    rw [List.foldl_cons]
    exact ih _ (fun x hx => hes x (List.mem_cons_of_mem _ hx))
      (reapStep_inv s now hinv st hst e (hes e (List.mem_cons_self _ _)))

theorem reap_inv (s : Subnet) (now : Int) (hinv : PoolInv s) : ReapInv s (reap s now) :=
  reap_fold_inv s now hinv s.Leases _ (fun _ h => h)
    ⟨fun _ h => h, rfl, hinv.2.2.2.1⟩

theorem poolInv_of_reapInv (s : Subnet) (hinv : PoolInv s)
    (st : BitSet × List (String × Lease) × Bool) (hst : ReapInv s st) :
    PoolInv { s with ActiveBits := st.1, Leases := st.2.1 } := by
  obtain ⟨hend, hlen, hout, _, hdist⟩ := hinv
  obtain ⟨hsub, hl, hbits⟩ := hst
  refine ⟨hend, ?_, hout, hbits, ?_⟩
  · show st.1.Len = s.ActiveEnd - s.ActiveStart + 1
    rw [hl, hlen]
  · intro e1 h1 e2 h2 hk hin
    exact hdist e1 (hsub e1 h1) e2 (hsub e2 h2) hk hin

theorem free_lease_inv (s : Subnet) (nic : String) (hinv : PoolInv s) :
    PoolInv (free_lease s nic) := by
  unfold free_lease
  cases hl : mapGet s.Leases nic with
  | none => exact hinv
  | some l =>
    exact poolInv_of_reapInv s hinv _
      (clear_step_inv s hinv (s.ActiveBits, s.Leases, false)
        ⟨fun _ h => h, rfl, hinv.2.2.2.1⟩ (nic, l) (mapGet_mem _ _ _ hl) false)

theorem storeLease_inv (s : Subnet) (hinv : PoolInv s) (nic : String) (ip : Nat)
    (ob : Option Binding)
    (hnew : InActive s ip →
      s.ActiveBits.Test (ip - s.ActiveStart) = true ∧ ∀ e ∈ s.Leases, e.2.Ip ≠ ip) :
    PoolInv (storeLease s nic ip ob).1 := by
  obtain ⟨hend, hlen, hout, hbits, hdist⟩ := hinv
  refine ⟨hend, hlen, hout, ?_, ?_⟩
  · intro e he hin
    simp only [storeLease, mapSet, List.mem_cons] at he
    rcases he with he | he
    · subst he
      exact (hnew hin).1
    · exact hbits e ((mem_mapDelete _ _ _).1 he).1 hin
  · intro e1 h1 e2 h2 hk hin
    simp only [storeLease, mapSet, List.mem_cons] at h1 h2
    rcases h1 with h1 | h1 <;> rcases h2 with h2 | h2
    · subst h1; subst h2
      exact absurd rfl hk
    · subst h1
      exact fun heq => (hnew hin).2 e2 ((mem_mapDelete _ _ _).1 h2).1 heq.symm
    · subst h2
      intro heq
      have hin2 : InActive s ip := by
        have : e1.2.Ip = ip := heq
        rw [← this]; exact hin
      exact (hnew hin2).2 e1 ((mem_mapDelete _ _ _).1 h1).1 heq
    · exact hdist e1 ((mem_mapDelete _ _ _).1 h1).1 e2 ((mem_mapDelete _ _ _).1 h2).1 hk hin

theorem set_bit_inv (s : Subnet) (hinv : PoolInv s) (k : Nat) (hk : k < s.ActiveBits.Len)
    (hclear : s.ActiveBits.Test k = false) :
    PoolInv { s with ActiveBits := s.ActiveBits.Set k } ∧
    (InActive s ((s.ActiveStart + k) % two32) →
      (s.ActiveBits.Set k).Test ((s.ActiveStart + k) % two32 - s.ActiveStart) = true ∧
      ∀ e ∈ s.Leases, e.2.Ip ≠ (s.ActiveStart + k) % two32) := by
  obtain ⟨hend, hlen, hout, hbits, hdist⟩ := hinv
  refine ⟨⟨hend, ?_, hout, ?_, hdist⟩, ?_⟩
  · show (s.ActiveBits.Set k).Len = s.ActiveEnd - s.ActiveStart + 1
    rw [BitSet.len_Set _ _ hk, hlen]
  · intro e he hin
    show (s.ActiveBits.Set k).Test (e.2.Ip - s.ActiveStart) = true
    by_cases hidx : e.2.Ip - s.ActiveStart = k
    · rw [hidx]; exact BitSet.test_Set_self _ _ hk
    · rw [BitSet.test_Set_ne _ _ _ hk hidx]; exact hbits e he hin
  · intro hin
    have hr := (IPInRange_iff _ _ _).1 hin
    have hval : (s.ActiveStart + k) % two32 = s.ActiveStart + k := by
      unfold two32 at hend hr ⊢
      omega
    rw [hval]
    refine ⟨?_, ?_⟩
    · rw [Nat.add_sub_cancel_left]; exact BitSet.test_Set_self _ _ hk
    · intro e he heq
      have hein : InActive s e.2.Ip := by
        unfold InActive
        rw [heq, ← hval]; exact hin
      have := hbits e he hein
      rw [heq, Nat.add_sub_cancel_left, hclear] at this
      cases this

theorem getFreeIP_inv (s : Subnet) (now : Int) (hinv : PoolInv s) :
    PoolInv (getFreeIP s now).1 ∧
    ∀ ip, (getFreeIP s now).2.1 = some ip → InActive (getFreeIP s now).1 ip →
      (getFreeIP s now).1.ActiveBits.Test (ip - (getFreeIP s now).1.ActiveStart) = true ∧
      ∀ e ∈ (getFreeIP s now).1.Leases, e.2.Ip ≠ ip := by
  rcases firstClearBit_spec s.ActiveBits with ⟨_, hr⟩ | ⟨k, hk, hc, _, hr⟩
  · have hs1 := poolInv_of_reapInv s hinv _ (reap_inv s now hinv)
    rcases firstClearBit_spec (reap s now).1 with ⟨_, hr2⟩ | ⟨k, hk, hc, _, hr2⟩
    · have hg : getFreeIP s now =
          ({ s with ActiveBits := (reap s now).1, Leases := (reap s now).2.1 }, none,
            (reap s now).2.2) := by
        simp [getFreeIP, hr, hr2]
      rw [hg]
      exact ⟨hs1, fun ip h => by cases h⟩
    · have hg : getFreeIP s now =
          ({ s with ActiveBits := (reap s now).1.Set k, Leases := (reap s now).2.1 },
            some ((s.ActiveStart + k) % two32), true) := by
        simp [getFreeIP, hr, hr2, IPAdd_toInt]
      rw [hg]
      obtain ⟨h1, h2⟩ := set_bit_inv _ hs1 k hk hc
      refine ⟨h1, fun ip h hin => ?_⟩
      simp only [Option.some.injEq] at h
      subst h
      exact h2 hin
  · rw [getFreeIP_of_clear s now k hr, IPAdd_toInt]
    obtain ⟨h1, h2⟩ := set_bit_inv s hinv k hk hc
    refine ⟨h1, fun ip h hin => ?_⟩
    simp only [Option.some.injEq] at h
    subst h
    exact h2 hin

theorem find_or_get_info_inv (s : Subnet) (now : Int) (nic : String) (suggest : Option Nat)
    (hinv : PoolInv s) : PoolInv (find_or_get_info s now nic suggest).1 := by
  cases hb : mapGet s.Bindings nic with
  | some b =>
    by_cases hex : ∃ l, mapGet s.Leases nic = some l ∧ l.Ip = b.Ip
    · obtain ⟨l, hl, hip⟩ := hex
      rw [find_or_get_info_stable s now nic suggest l (some b) hl hb
        (by intro b' hb'; cases hb'; exact hip)]
      exact hinv
    · have hne : ∀ l, mapGet s.Leases nic = some l → l.Ip ≠ b.Ip :=
        fun l hl hip => hex ⟨l, hl, hip⟩
      have hfo : find_or_get_info s now nic suggest = storeLease s nic b.Ip (some b) := by
        unfold find_or_get_info
        simp only [hb]
        cases hlease : mapGet s.Leases nic with
        | none => exact slowPath_bound s now nic b hb hne
        | some l =>
          simp only
          rw [if_neg (hne l hlease)]
          exact slowPath_bound s now nic b hb hne
      rw [hfo]
      refine storeLease_inv s hinv nic b.Ip (some b) (fun hin => ?_)
      have := hinv.2.2.1 (nic, b) (mapGet_mem _ _ _ hb)
      rw [InActive] at hin
      rw [hin] at this
      cases this
  | none =>
    cases hlease : mapGet s.Leases nic with
    | some l =>
      rw [find_or_get_info_stable s now nic suggest l none hlease hb
        (by intro b' hb'; cases hb')]
      exact hinv
    | none =>
      have hfo : find_or_get_info s now nic suggest = slowPath s now nic := by
        unfold find_or_get_info
        simp only [hlease]
      rw [hfo, slowPath_unbound s now nic hb]
      obtain ⟨h1, h2⟩ := getFreeIP_inv s now hinv
      cases hg : (getFreeIP s now).2.1 with
      | none => exact h1
      | some ip => exact storeLease_inv _ h1 nic ip none (h2 ip hg)

theorem poolInv_of_fresh (s0 : Subnet) (hfresh : Fresh s0) (hend : s0.ActiveEnd < two32)
    (hout : BindingsOutside s0) : PoolInv s0 := by
  obtain ⟨hl, hbits⟩ := hfresh
  refine ⟨hend, ?_, hout, ?_, ?_⟩
  · rw [hbits]; simp [BitSet.New, BitSet.Len]
  · intro e he; rw [hl] at he; cases he
  · intro e he; rw [hl] at he; cases he

theorem reachable_inv (s0 s : Subnet) (h0 : PoolInv s0) (hr : Reachable s0 s) : PoolInv s := by
  induction hr with
  | start => exact h0
  | alloc s now nic suggest _ ih => exact find_or_get_info_inv s now nic suggest ih
  | free s nic _ ih => exact free_lease_inv s nic ih

/-- C7, at a failing run.  From the fresh subnet `freshPool` (three clear
bits, no leases, no bindings) `macA` and `macB` take leases, on 10.0.0.10 and
10.0.0.11, and `free_lease` frees `macB`.  In the state reached pool bit 1 is
still set although no lease holds 10.0.0.11: `free_lease` hands
`uint(active_start - lease.ip)` to `Clear`, the same slip as in C1 and C4. -/
theorem reachable_bit_without_lease :
    Fresh freshPool ∧ freshPool.Bindings = [] ∧ Reachable freshPool afterFree ∧
    afterFree.ActiveBits.Test 1 = true ∧
    afterFree.Leases = [(macA, mkLease ip10 macA 0)] ∧
    ∀ e ∈ afterFree.Leases, e.2.Ip ≠ afterFree.ActiveStart + 1 :=
  ⟨⟨by decide, by decide⟩, by decide,
   Reachable.free _ macB (Reachable.alloc _ 0 macB none
     (Reachable.alloc _ 0 macA none Reachable.start)),
   by decide, by decide, by decide⟩

/-- C8.  Start from a freshly built subnet `s0`: no leases, a pool of
`active_end - active_start + 1` clear bits, `active_end` an IPv4 address, and a
binding table with no address in the active range.  In every state reached by
calls of `find_or_get_info` and `free_lease`, at any times, every lease with an
address in the active range has the pool bit at `ip - active_start` set (I1),
and no two MACs hold leases on the same address of the active range. -/
theorem reachable_leases_have_bits (s0 s : Subnet) (hfresh : Fresh s0)
    (hend : s0.ActiveEnd < two32) (hout : BindingsOutside s0) (hr : Reachable s0 s) :
    LeasesHaveBits s ∧ LeasesDistinct s := by
  obtain ⟨_, _, _, hbits, hdist⟩ := reachable_inv s0 s (poolInv_of_fresh s0 hfresh hend hout) hr
  constructor
  · intro mac l hl hin
    exact hbits (mac, l) (mapGet_mem _ _ _ hl) hin
  · intro m1 m2 l1 l2 hne h1 h2 hin
    exact hdist (m1, l1) (mapGet_mem _ _ _ h1) (m2, l2) (mapGet_mem _ _ _ h2) hne hin

/-- C8 at the run `afterRun` from the fresh subnet `freshBound`, whose one
binding is on 10.0.0.50. -/
theorem reachable_leases_have_bits_witness :
    Fresh freshBound ∧ freshBound.ActiveEnd < two32 ∧ BindingsOutside freshBound ∧
    Reachable freshBound afterRun ∧ LeasesHaveBits afterRun ∧ LeasesDistinct afterRun :=
  have hr : Reachable freshBound afterRun :=
    Reachable.free _ macA (Reachable.alloc _ 5 macB none (Reachable.alloc _ 3 macC none
      (Reachable.alloc _ 0 macA none Reachable.start)))
  ⟨⟨by decide, by decide⟩, by decide, by unfold BindingsOutside; decide, hr,
   (reachable_leases_have_bits freshBound afterRun ⟨by decide, by decide⟩ (by decide)
     (by unfold BindingsOutside; decide) hr).1,
   (reachable_leases_have_bits freshBound afterRun ⟨by decide, by decide⟩ (by decide)
     (by unfold BindingsOutside; decide) hr).2⟩

end Dhcp
